import Mathlib

/-!
# Verification of the college-recommendation training pipeline

Shallow embedding of the record-reconciliation and aggregation pipeline of
`trainer.py` (class `CollegeDataTrainer`) and of the chance-tier computation of
the query layer (`improved_recomedation.py`, `recommender.py`).

Modelling conventions:
* Python strings are `String` / `List Char`; `str.upper`, `str.strip`,
  `str.replace` and the two `re.sub` calls of `normalize_college_name` are
  embedded character-exactly for the ASCII fragment (the data this program
  consumes is ASCII; Python's Unicode case table and Unicode whitespace
  agree with the ASCII one there).
* Python floats are modelled as exact rationals `ℚ`; `round(x, 2)` is
  modelled as rounding `100*x` to the nearest integer (ties up).  The claims
  proved about these values (interval bounds, exact sentinel values) are
  insensitive to the float-vs-rational distinction and to the tie direction.
* Pandas cells that may be missing (`NaN` / absent column) are `Option`s.
* Python `dict`s (insertion-ordered) are association lists, `set`s of
  years/rounds are duplicate-free lists in insertion order.
* `float('inf')` (the initial `min_rank`) is `Option ℤ` with `none` = infinity.
-/

namespace CollegeRec

/-! ## Character classes (ASCII model of Python `str`/`re` semantics) -/

/-- Python whitespace (`str.strip`, regex `\s`), ASCII fragment. -/
def isPySpace (c : Char) : Bool :=
  c == ' ' || c == '\t' || c == '\n' || c == '\r' || c == '\x0b' || c == '\x0c'

/-- Regex `\w` (word character), ASCII fragment. -/
def isWordChar (c : Char) : Bool :=
  c.isAlpha || c.isDigit || c == '_'

/-! ## Python string primitives on `List Char` -/

/-- `str.upper()` (ASCII). -/
def pyUpper (l : List Char) : List Char := l.map Char.toUpper

/-- `str.lower()` (ASCII). -/
def pyLower (l : List Char) : List Char := l.map Char.toLower

/-- `str.strip()`: drop whitespace from both ends. -/
def pyStrip (l : List Char) : List Char :=
  ((l.dropWhile isPySpace).reverse.dropWhile isPySpace).reverse

/-- Python `s.replace(key, repl)`, replacing non-overlapping occurrences of
`key` left to right (for nonempty `key`).  `skip` counts input characters
still owed to the occurrence just replaced: after emitting `repl` for a
match at `c :: rest`, the remaining `key.length - 1` matched characters of
`rest` are consumed without scanning.  Structural on the scanned list. -/
def replaceSkip (key repl : List Char) : Nat → List Char → List Char
  | _, [] => []
  | skip + 1, _ :: rest => replaceSkip key repl skip rest
  | 0, c :: rest =>
    if key ≠ [] ∧ key.isPrefixOf (c :: rest) then
      repl ++ replaceSkip key repl (key.length - 1) rest
    else
      c :: replaceSkip key repl 0 rest

/-- Python `s.replace(key, repl)` (for nonempty `key`). -/
def replaceAll (key repl s : List Char) : List Char :=
  replaceSkip key repl 0 s

/-- `re.sub(r'[^\w\s]', ' ', s)`: each character outside `\w`/`\s` becomes a
space. -/
def stripSpecials (l : List Char) : List Char :=
  l.map fun c => if isWordChar c || isPySpace c then c else ' '

/-- `re.sub(r'\s+', ' ', s)`: every maximal whitespace run becomes one space.
`prevWs` records whether the previously consumed character was whitespace. -/
def collapseGo (prevWs : Bool) : List Char → List Char
  | [] => []
  | c :: rest =>
    if isPySpace c then
      if prevWs then collapseGo true rest else ' ' :: collapseGo true rest
    else
      c :: collapseGo false rest

def collapseWs (l : List Char) : List Char := collapseGo false l

/-- Substring (contiguous) test on character lists. -/
def listContains (needle : List Char) : List Char → Bool
  | [] => needle.isEmpty
  | c :: rest => needle.isPrefixOf (c :: rest) || listContains needle rest

/-- Python `needle in haystack` for strings. -/
def strContains (haystack needle : String) : Bool :=
  listContains needle.data haystack.data

/-! ## `CollegeDataTrainer.normalize_college_name` -/

/-- The ordered replacement table of `normalize_college_name` (a Python dict,
iterated in insertion order). -/
def replacements : List (List Char × List Char) :=
  [("IIT".data, "INDIAN INSTITUTE OF TECHNOLOGY".data),
   ("NIT".data, "NATIONAL INSTITUTE OF TECHNOLOGY".data),
   ("IIIT".data, "INDIAN INSTITUTE OF INFORMATION TECHNOLOGY".data),
   ("B.TECH".data, "BACHELOR OF TECHNOLOGY".data),
   ("B.TECH.".data, "BACHELOR OF TECHNOLOGY".data),
   ("ENGINEERING".data, "ENGG".data),
   ("TECHNOLOGY".data, "TECH".data),
   (" ".data, " ".data),
   ("(".data, "".data),
   (")".data, "".data),
   ("&".data, "AND".data)]

def applyReplacements (l : List Char) : List Char :=
  replacements.foldl (fun s kr => replaceAll kr.1 kr.2 s) l

/-- `normalize_college_name` on the character list:
`name.upper().strip()`, the replacement table in order, then
`re.sub(r'[^\w\s]', ' ', name)` and `re.sub(r'\s+', ' ', name).strip()`. -/
def normChars : List Char → List Char
  | [] => []
  | c :: rest =>
    pyStrip (collapseWs (stripSpecials (applyReplacements
      (pyStrip (pyUpper (c :: rest))))))

/-- `CollegeDataTrainer.normalize_college_name` (string branch; a non-string
or NaN input returns `""` before this code runs). -/
def normalize_college_name (s : String) : String := ⟨normChars s.data⟩

/-! ## Branch classifiers -/

/-- The ordered pattern table of `extract_branch_from_program`.  Every regex
in the source is an alternation of plain literals, so `re.search` is "some
alternative is a substring" of the uppercased program name. -/
def branchPatterns : List (String × List String) :=
  [("Computer Science", ["COMPUTER SCIENCE", "CS", "CSE", "COMPUTER ENGG", "COMPUTER"]),
   ("Electrical", ["ELECTRICAL", "EE", "ELECTRICAL ENGG", "ELECTRICAL ENGINEERING"]),
   ("Mechanical", ["MECHANICAL", "ME", "MECH", "MECHANICAL ENGG"]),
   ("Electronics", ["ELECTRONICS", "EC", "ECE", "ELECTRONICS ENGG", "ELECTRONICS AND COMMUNICATION"]),
   ("Civil", ["CIVIL", "CE", "CIVIL ENGG", "CIVIL ENGINEERING"]),
   ("Information Technology", ["INFORMATION TECHNOLOGY", "IT", "IT ENGG"]),
   ("Chemical", ["CHEMICAL", "CH", "CHEMICAL ENGG", "CHEMICAL ENGINEERING"]),
   ("Aerospace", ["AEROSPACE", "AE", "AERONAUTICAL", "AEROSPACE ENGG"]),
   ("Biotechnology", ["BIOTECHNOLOGY", "BT", "BIO TECH", "BIO TECHNOLOGY"]),
   ("Instrumentation", ["INSTRUMENTATION", "IC", "INSTRUMENTATION ENGG", "CONTROL"]),
   ("Metallurgy", ["METALLURGY", "MT", "METALLURGICAL ENGG"]),
   ("Mining", ["MINING", "MN", "MINING ENGG"]),
   ("Production", ["PRODUCTION", "INDUSTRIAL", "PRODUCTION ENGG", "INDUSTRIAL ENGG"]),
   ("Physics", ["PHYSICS", "ENGINEERING PHYSICS"]),
   ("Mathematics", ["MATHEMATICS", "MATHS", "COMPUTATIONAL MATHEMATICS"])]

def matchesAny (alts : List String) (u : List Char) : Bool :=
  alts.any fun a => listContains a.data u

def firstBranch : List (String × List String) → List Char → String
  | [], _ => "Other"
  | (b, alts) :: rest, u => if matchesAny alts u then b else firstBranch rest u

/-- `CollegeDataTrainer.extract_branch_from_program` (string branch; a
non-string input returns `"Other"` before this code runs). -/
def extract_branch_from_program (s : String) : String :=
  firstBranch branchPatterns (pyUpper s.data)

/-- The keyword table of `extract_branch_from_course` (insertion order). -/
def courseBranchTable : List (String × String) :=
  [("COMPUTER", "Computer Science"),
   ("MECHANICAL", "Mechanical"),
   ("CIVIL", "Civil"),
   ("ELECTRONICS", "Electronics"),
   ("ELECTRICAL", "Electrical"),
   ("CHEMICAL", "Chemical"),
   ("INFORMATION TECHNOLOGY", "Information Technology"),
   ("IT", "Information Technology"),
   ("BIOTECH", "Biotechnology"),
   ("INSTRUMENTATION", "Instrumentation"),
   ("METALLURGY", "Metallurgy"),
   ("MINING", "Mining"),
   ("PRODUCTION", "Production"),
   ("INDUSTRIAL", "Production"),
   ("PHYSICS", "Physics")]

def firstCourse : List (String × String) → List Char → String
  | [], _ => "Other"
  | (k, b) :: rest, u => if listContains k.data u then b else firstCourse rest u

/-- `CollegeDataTrainer.extract_branch_from_course` (string branch). -/
def extract_branch_from_course (s : String) : String :=
  firstCourse courseBranchTable (pyUpper s.data)

/-! ## `CollegeDataTrainer.map_seat_type_to_category` -/

def map_seat_type_to_category (s : String) : String :=
  let u := pyUpper s.data
  if listContains "OPEN".data u && !listContains "PWD".data u then "OPEN"
  else if listContains "OBC".data u then "OBC-NCL"
  else if listContains "SC".data u then "SC"
  else if listContains "ST".data u then "ST"
  else if listContains "EWS".data u then "EWS"
  else "GENERAL"

/-! ## `CollegeDataTrainer.parse_rank` -/

def digitsToNat (l : List Char) : ℕ :=
  l.foldl (fun a c => a * 10 + (c.toNat - 48)) 0

/-- `int(float(s))` on a cleaned string: the decimal-literal fragment of
Python's `float` grammar (optional sign, digits, optional fractional part),
truncated toward zero; anything else fails (`ValueError` in the source).
Exponent/`inf`/`nan` spellings never occur in rank cells and are not
modelled. -/
def parseRankCore (l : List Char) : Option ℤ :=
  let sgnRest : ℤ × List Char :=
    match l with
    | '-' :: t => (-1, t)
    | '+' :: t => (1, t)
    | t => (1, t)
  let intPart := sgnRest.2.takeWhile Char.isDigit
  let rest := sgnRest.2.dropWhile Char.isDigit
  let fracOk : Bool :=
    match rest with
    | [] => intPart ≠ []
    | '.' :: frac => frac.all Char.isDigit && (intPart ≠ [] || frac ≠ [])
    | _ => false
  if fracOk then some (sgnRest.1 * digitsToNat intPart) else none

/-- `CollegeDataTrainer.parse_rank`: `none` is a NaN/absent cell; otherwise
`str(cell).upper().replace('P', '').replace(' ', '')` then `int(float(_))`,
with `0` as the sentinel for empty/unparseable. -/
def parse_rank (cell : Option String) : ℤ :=
  match cell with
  | none => 0
  | some s =>
    let t := ((pyUpper s.data).filter fun c => !(c == 'P')).filter fun c => !(c == ' ')
    if t = [] then 0
    else
      match parseRankCore t with
      | some z => z
      | none => 0

/-! ## Association lists (Python `dict`, insertion-ordered) -/

/-- First-occurrence lookup, i.e. `d.get(k)` / `d[k]`. -/
def lookupA {β : Type} (m : List (String × β)) (k : String) : Option β :=
  match m with
  | [] => none
  | (k', v) :: rest => if k' = k then some v else lookupA rest k

/-- `d[k] = f(d[k] if k in d else init)`: update the binding of `k` in
place, appending a fresh binding at the end when `k` is absent (Python dict
insertion semantics). -/
def updAssoc {β : Type} (k : String) (init : β) (f : β → β) :
    List (String × β) → List (String × β)
  | [] => [(k, f init)]
  | (k', v) :: rest =>
    if k' = k then (k', f v) :: rest else (k', v) :: updAssoc k init f rest

/-! ## Raw and preprocessed admission rows -/

/-- One raw admission row (`self.admission_data.iterrows()`): `none` models
a NaN cell or an absent column, rank cells are kept in string form.  The
`Year`/`Round`/`Source_File` columns are read with `row.get(_, default)`. -/
structure RawRow where
  institute : Option String
  program : Option String
  seatType : Option String
  opening : Option String
  closing : Option String
  year : Option ℤ
  round : Option ℤ
  sourceFile : Option String
deriving DecidableEq

/-- One row of the `processed_data` list built by
`preprocess_admission_data`. -/
structure PRec where
  college : String
  branch : String
  category : String
  opening : ℤ
  closing : ℤ
  year : ℤ
  round : ℤ
  source : String
deriving DecidableEq

/-- The per-row body of the `preprocess_admission_data` loop.  `none` means
the row was skipped by the `continue` on a zero (unparseable) rank. -/
def preprocessRow (r : RawRow) : Option PRec :=
  let institute := r.institute.getD "Unknown"
  let program := r.program.getD "Unknown"
  let seatType := r.seatType.getD "OPEN"
  let openingRank := parse_rank r.opening
  let closingRank := parse_rank r.closing
  if openingRank = 0 ∨ closingRank = 0 then none
  else
    some
      { college := ⟨pyStrip institute.data⟩
        branch := extract_branch_from_program program
        category := map_seat_type_to_category seatType
        opening := openingRank
        closing := closingRank
        year := r.year.getD 2023
        round := r.round.getD 1
        source := r.sourceFile.getD "Unknown" }

/-- `CollegeDataTrainer.preprocess_admission_data`: the row loop followed by
the `processed_df['College'] != "Unknown"` filter. -/
def preprocess (rows : List RawRow) : List PRec :=
  (rows.filterMap preprocessRow).filter fun p => p.college ≠ "Unknown"

/-! ## VFM data, fuzzy mappings, and `get_vfm_score` -/

/-- One row of the Value-for-Money sheet (`Institute`, `Course`,
`Value for Money (Out of 5)`). -/
structure VfmRow where
  institute : String
  course : String
  score : ℚ
deriving DecidableEq

/-- One value of `self.college_mappings`. -/
structure MappingEntry where
  vfm_name : String
  match_score : ℕ
deriving DecidableEq

/-- `round(x, 2)`: nearest multiple of 1/100 (Python rounds ties to even;
the tie direction is irrelevant to every property proved here). -/
def round2 (x : ℚ) : ℚ := (⌊x * 100 + 1 / 2⌋ : ℚ) / 100

/-- `np.mean` / `.mean()` of a list of numbers. -/
def listMean (l : List ℚ) : ℚ := l.sum / l.length

/-- The per-row body of the branch-matching loop in `get_vfm_score`:
`some v` means the row's rating is collected with value `v`. -/
def rowScore (branch : String) (r : VfmRow) : Option ℚ :=
  let vfmBranch := extract_branch_from_course r.course
  if vfmBranch = branch ∨ strContains branch vfmBranch ∨ strContains vfmBranch branch then
    some r.score
  else if vfmBranch = "Other" ∨ branch = "Other" then
    some (r.score * (7 / 10))
  else
    none

/-- `CollegeDataTrainer.get_vfm_score`. -/
def get_vfm_score (vfmData : List VfmRow) (mappings : List (String × MappingEntry))
    (collegeName branch : String) : ℚ :=
  if vfmData = [] then 3
  else
    match lookupA mappings (normalize_college_name collegeName) with
    | none => 3
    | some mapping =>
      let vfmRecords := vfmData.filter fun r =>
        normalize_college_name r.institute = mapping.vfm_name
      if vfmRecords = [] then 3
      else
        let branchScores := vfmRecords.filterMap (rowScore branch)
        if branchScores ≠ [] then round2 (listMean branchScores)
        else round2 (listMean (vfmRecords.map VfmRow.score) * (8 / 10))

/-- `process.alternatives` best match: `fuzzywuzzy.process.extractOne`
(external library, not part of this repository), modelled from the spec:
score every choice, keep the single highest-scoring one (first wins on
ties), `none` on an empty choice list.  The scorer is abstract: every claim
settled here holds for an arbitrary scorer. -/
def extractOne (scorer : String → String → ℕ) (query : String) :
    List String → Option (String × ℕ)
  | [] => none
  | c :: cs =>
    match extractOne scorer query cs with
    | none => some (c, scorer query c)
    | some (b, s) => if scorer query c ≥ s + 1 then some (c, scorer query c) else some (b, s)

/-- `CollegeDataTrainer.create_college_mappings`: normalize both name sets
(Python `set`: duplicates removed), skip empty source names, keep the best
match per source name when its score reaches 75. -/
def create_college_mappings (scorer : String → String → ℕ)
    (admissionNames vfmNames : List String) : List (String × MappingEntry) :=
  let collegesAdmission := (admissionNames.map normalize_college_name).dedup
  let collegesVfm := (vfmNames.map normalize_college_name).dedup
  collegesAdmission.filterMap fun collegeA =>
    if collegeA = "" then none
    else
      match extractOne scorer collegeA collegesVfm with
      | none => none
      | some (bestMatch, score) =>
        if score ≥ 75 then some (collegeA, ⟨bestMatch, score⟩) else none

/-! ## `CollegeDataTrainer.train_model` (the aggregator) -/

/-- Per-(college-branch, category) statistics.  `min_rank = none` models the
initial `float('inf')`. -/
structure CatStats where
  min_rank : Option ℤ
  max_rank : ℤ
  count : ℕ
  years : List ℤ
  rounds : List ℤ
deriving DecidableEq

/-- One value of `self.model`. -/
structure ModelEntry where
  categories : List (String × CatStats)
  value_for_money : ℚ
  college : String
  branch : String
  data_points : ℕ
deriving DecidableEq

/-- `min(current, x)` against an initial `float('inf')`. -/
def optMin (cur : Option ℤ) (x : ℤ) : Option ℤ :=
  match cur with
  | none => some x
  | some m => some (min m x)

/-- Python `set.add` on a set represented as a duplicate-free list in
insertion order. -/
def addToSet (x : ℤ) (l : List ℤ) : List ℤ := if x ∈ l then l else l ++ [x]

def freshStats : CatStats := ⟨none, 0, 0, [], []⟩

/-- The stats update of one record inside the `train_model` loop. -/
def updStats (r : PRec) (s : CatStats) : CatStats :=
  { min_rank := optMin s.min_rank r.opening
    max_rank := max s.max_rank r.closing
    count := s.count + 1
    years := addToSet r.year s.years
    rounds := addToSet r.round s.rounds }

/-- One iteration of the `train_model` loop over `processed_data`.  `vfm` is
the `get_vfm_score` closure (evaluated only when the key is first seen). -/
def trainStep (vfm : String → String → ℚ) (m : List (String × ModelEntry)) (r : PRec) :
    List (String × ModelEntry) :=
  let key := r.college ++ " - " ++ r.branch
  updAssoc key
    { categories := [], value_for_money := vfm r.college r.branch
      college := r.college, branch := r.branch, data_points := 0 }
    (fun e =>
      { e with
        categories := updAssoc r.category freshStats (updStats r) e.categories
        data_points := e.data_points + 1 })
    m

/-- The full loop of `train_model` over a processed-record list. -/
def trainAggregate (vfm : String → String → ℚ) (precs : List PRec) :
    List (String × ModelEntry) :=
  precs.foldl (trainStep vfm) []

/-- `CollegeDataTrainer.train_model`: preprocess, aggregate, then drop
entries with fewer than one data point. -/
def train_model (vfmData : List VfmRow) (mappings : List (String × MappingEntry))
    (raws : List RawRow) : List (String × ModelEntry) :=
  (trainAggregate (get_vfm_score vfmData mappings) (preprocess raws)).filter
    fun kv => 1 ≤ kv.2.data_points

/-! ## Query layer -/

/-- Category statistics as the query layer reads them back from the saved
model (finite ranks). -/
structure QStats where
  min_rank : ℤ
  max_rank : ℤ
deriving DecidableEq

/-- A model entry as read by `improved_recomedation.py`. -/
structure QEntry where
  college : String
  branch : String
  value_for_money : ℚ
  categories : List (String × QStats)
deriving DecidableEq

/-- The admission-chance computation of
`CollegeRecommender.get_recommendations` in `improved_recomedation.py`
(chance label and sorting score). -/
def chance_improved (jeeRank minRank maxRank : ℤ) : String × ℚ :=
  if jeeRank ≤ minRank then ("🟢 HIGH", 3)
  else if jeeRank ≤ maxRank then
    if ((jeeRank - minRank : ℤ) : ℚ) / ((maxRank - minRank : ℤ) : ℚ) ≤ 1 / 2 then
      ("🟡 GOOD", 2)
    else ("🟠 MEDIUM", 3 / 2)
  else
    if ((jeeRank - maxRank : ℤ) : ℚ) / (maxRank : ℚ) ≤ 1 / 5 then ("🟠 LOW", 1)
    else ("🔴 VERY LOW", 1 / 2)

/-- The admission-chance computation of
`CollegeRecommender.get_recommendations` in `recommender.py`. -/
def chance_basic (jeeRank minRank maxRank : ℤ) : String :=
  if jeeRank ≤ minRank then "High"
  else if jeeRank ≤ maxRank then "Medium"
  else "Low"

/-- One produced recommendation row (display fields plus sort keys). -/
structure RecRow where
  college : String
  branch : String
  category : String
  minRank : ℤ
  maxRank : ℤ
  chance : String
  chanceScore : ℚ
  vfm : ℚ
deriving DecidableEq

/-- The per-entry body of the recommendation loop in
`improved_recomedation.py`: branch-preference filter, category filter, then
the chance computation. -/
def recommend_entry (category : String) (jeeRank : ℤ) (branchPref : String)
    (e : QEntry) : Option RecRow :=
  if branchPref ≠ "Any" ∧ ¬(strContains ⟨pyLower e.branch.data⟩ ⟨pyLower branchPref.data⟩ = true) then
    none
  else
    match lookupA e.categories category with
    | none => none
    | some st =>
      let ch := chance_improved jeeRank st.min_rank st.max_rank
      some ⟨e.college, e.branch, category, st.min_rank, st.max_rank, ch.1, ch.2, e.value_for_money⟩

/-! ## Derived notions used by the statements -/

/-- The model key built by `train_model`. -/
def keyOf (r : PRec) : String := r.college ++ " - " ++ r.branch

/-- The processed records carrying a given model key and category. -/
def matchRecs (L : List PRec) (k c : String) : List PRec :=
  L.filter fun r => keyOf r == k && r.category == c

/-- The minimum of the `Opening_Rank` values of a record list, starting from
`float('inf')` (`none`), folded exactly as the training loop does. -/
def minOpen (L : List PRec) : Option ℤ :=
  L.foldl (fun acc r => optMin acc r.opening) none

/-- The maximum of the `Closing_Rank` values of a record list, starting from
`0`, folded exactly as the training loop does. -/
def maxClose (L : List PRec) : ℤ :=
  L.foldl (fun acc r => max acc r.closing) 0

/-- The fixed branch taxonomy (the pattern-table branches plus `"Other"`). -/
def branchTaxonomy : List String :=
  ["Computer Science", "Electrical", "Mechanical", "Electronics", "Civil",
   "Information Technology", "Chemical", "Aerospace", "Biotechnology",
   "Instrumentation", "Metallurgy", "Mining", "Production", "Physics",
   "Mathematics", "Other"]

/-- Invariant of the aggregation loop relating the model built so far to the
list `L` of records already folded in. -/
def AggInv (L : List PRec) (m : List (String × ModelEntry)) : Prop :=
  (m.map Prod.fst).Nodup ∧
  (∀ k, lookupA m k = none → ∀ c, matchRecs L k c = []) ∧
  (∀ k e, lookupA m k = some e →
    k = e.college ++ " - " ++ e.branch ∧
    (∃ r0, r0 ∈ L ∧ r0.college = e.college ∧ r0.branch = e.branch) ∧
    1 ≤ e.data_points ∧
    (∀ c, lookupA e.categories c = none → matchRecs L k c = []) ∧
    (∀ c s, lookupA e.categories c = some s →
      s.min_rank = minOpen (matchRecs L k c) ∧
      s.max_rank = maxClose (matchRecs L k c) ∧
      matchRecs L k c ≠ []))

/-- Modelled from the spec: the Category Mapper described as "an explicit
ordered list of (predicate, result) pairs evaluated first-match-wins" over
the uppercased input, with `GENERAL` as the default.  Used only to state the
refinement half of the claim about `map_seat_type_to_category`. -/
def categoryRules : List ((String → Bool) × String) :=
  [(fun u => strContains u "OPEN" && !(strContains u "PWD"), "OPEN"),
   (fun u => strContains u "OBC", "OBC-NCL"),
   (fun u => strContains u "SC", "SC"),
   (fun u => strContains u "ST", "ST"),
   (fun u => strContains u "EWS", "EWS")]

def firstRule : List ((String → Bool) × String) → String → String
  | [], _ => "GENERAL"
  | (p, res) :: rest, s => if p s then res else firstRule rest s

/-- Modelled from the spec: first-match-wins evaluation of `categoryRules`
on the uppercased seat-type string. -/
def map_seat_type_spec (s : String) : String :=
  firstRule categoryRules ⟨pyUpper s.data⟩

/-! # Theorems -/

/-! ## Generic lemmas about the string and association-list primitives -/

theorem listContains_iff (needle hay : List Char) :
    listContains needle hay = true ↔ needle <:+: hay := by
  induction hay with
  | nil =>
    show needle.isEmpty = true ↔ _
    rw [List.isEmpty_iff, List.infix_nil]
  | cons c rest ih =>
    show (needle.isPrefixOf (c :: rest) || listContains needle rest) = true ↔ _
    rw [Bool.or_eq_true, ih, List.isPrefixOf_iff_prefix, List.infix_cons_iff]

theorem strContains_iff (hay needle : String) :
    strContains hay needle = true ↔ needle.data <:+: hay.data := by
  simp [strContains, listContains_iff]

theorem string_ext {s t : String} (h : s.data = t.data) : s = t :=
  congrArg String.mk h

theorem lookupA_updAssoc {β : Type} (k k' : String) (d : β) (f : β → β)
    (m : List (String × β)) :
    lookupA (updAssoc k d f m) k' =
      if k' = k then some (f ((lookupA m k).getD d)) else lookupA m k' := by
  induction m with
  | nil =>
    simp only [updAssoc, lookupA]
    by_cases h : k = k'
    · rw [if_pos h, if_pos h.symm]
      rfl
    · rw [if_neg h, if_neg fun hh => h hh.symm]
  | cons kv rest ih =>
    obtain ⟨k0, v0⟩ := kv
    by_cases h0 : k0 = k
    · simp only [updAssoc, if_pos h0, lookupA]
      by_cases h1 : k' = k
      · have h2 : k0 = k' := h0.trans h1.symm
        rw [if_pos h2, if_pos h1, Option.getD_some]
      · have h2 : ¬(k0 = k') := fun hh => h1 (hh.symm.trans h0)
        rw [if_neg h2, if_neg h1, if_neg h2]
    · simp only [updAssoc, if_neg h0, lookupA]
      rw [ih]
      by_cases h1 : k0 = k'
      · have h2 : ¬(k' = k) := fun hh => h0 (h1.trans hh)
        rw [if_pos h1, if_neg h2, if_pos h1]
      · rw [if_neg h1]
        by_cases h2 : k' = k
        · rw [if_pos h2, if_pos h2]
        · rw [if_neg h2, if_neg h2, if_neg h1]

theorem lookupA_none_iff {β : Type} (m : List (String × β)) (k : String) :
    lookupA m k = none ↔ k ∉ m.map Prod.fst := by
  induction m with
  | nil => simp [lookupA]
  | cons kv rest ih =>
    obtain ⟨k0, v0⟩ := kv
    show (if k0 = k then some v0 else lookupA rest k) = none ↔ _
    by_cases h : k0 = k
    · subst h
      simp
    · rw [if_neg h]
      simp only [List.map_cons, List.mem_cons]
      rw [ih]
      constructor
      · intro hn hmem
        rcases hmem with hmem | hmem
        · exact h hmem.symm
        · exact hn hmem
      · intro hn hmem
        exact hn (Or.inr hmem)

theorem keys_updAssoc_present {β : Type} (k : String) (d : β) (f : β → β)
    (m : List (String × β)) (v : β) (h : lookupA m k = some v) :
    (updAssoc k d f m).map Prod.fst = m.map Prod.fst := by
  induction m with
  | nil => cases h
  | cons kv rest ih =>
    obtain ⟨k0, v0⟩ := kv
    by_cases h0 : k0 = k
    · simp [updAssoc, if_pos h0]
    · have h' : lookupA rest k = some v := by
        have : lookupA ((k0, v0) :: rest) k = if k0 = k then some v0 else lookupA rest k := rfl
        rw [this, if_neg h0] at h
        exact h
      simp [updAssoc, if_neg h0, ih h']

theorem keys_updAssoc_absent {β : Type} (k : String) (d : β) (f : β → β)
    (m : List (String × β)) (h : lookupA m k = none) :
    (updAssoc k d f m).map Prod.fst = m.map Prod.fst ++ [k] := by
  induction m with
  | nil => simp [updAssoc]
  | cons kv rest ih =>
    obtain ⟨k0, v0⟩ := kv
    have hlook : lookupA ((k0, v0) :: rest) k = if k0 = k then some v0 else lookupA rest k := rfl
    by_cases h0 : k0 = k
    · rw [hlook, if_pos h0] at h
      cases h
    · rw [hlook, if_neg h0] at h
      simp [updAssoc, if_neg h0, ih h]

theorem nodup_keys_updAssoc {β : Type} (k : String) (d : β) (f : β → β)
    {m : List (String × β)} (h : (m.map Prod.fst).Nodup) :
    ((updAssoc k d f m).map Prod.fst).Nodup := by
  rcases hl : lookupA m k with _ | v
  · rw [keys_updAssoc_absent k d f m hl, List.nodup_append]
    refine ⟨h, List.nodup_singleton _, ?_⟩
    intro a ha hak
    rw [List.mem_singleton] at hak
    subst hak
    exact (lookupA_none_iff m a).mp hl ha
  · rw [keys_updAssoc_present k d f m v hl]
    exact h

theorem lookupA_of_mem_nodup {β : Type} {m : List (String × β)} {k : String} {v : β}
    (hnd : (m.map Prod.fst).Nodup) (hm : (k, v) ∈ m) : lookupA m k = some v := by
  induction m with
  | nil => cases hm
  | cons kv rest ih =>
    obtain ⟨k0, v0⟩ := kv
    simp only [List.map_cons, List.nodup_cons] at hnd
    show (if k0 = k then some v0 else lookupA rest k) = some v
    rcases List.mem_cons.mp hm with h | h
    · injection h with h1 h2
      subst h1; subst h2
      rw [if_pos rfl]
    · have hk0 : ¬(k0 = k) := by
        intro he
        subst he
        exact hnd.1 (List.mem_map.mpr ⟨(k0, v), h, rfl⟩)
      rw [if_neg hk0]
      exact ih hnd.2 h

/-! ## C7: the two-row aggregation scenario -/

/-- **C1 scenario machinery is below; this is the closed two-row scenario.**
C7: aggregating the two admission rows
`("IIT Bombay", "Computer Science And Engg", "OPEN", 10, 50, 2023, 1)` and
`("IIT Bombay", "Computer Science", "OPEN", 5, 40, 2023, 2)` yields the
single entry `"IIT Bombay - Computer Science"` whose OPEN stats are
`min_rank = 5`, `max_rank = 50`, `count = 2`, years `{2023}`, rounds
`{1, 2}` (Python sets are modelled as duplicate-free lists in insertion
order, so `{2023}` is `[2023]` and `{1, 2}` is `[1, 2]`). -/
theorem c7_two_row_scenario :
    train_model [] []
      [⟨some "IIT Bombay", some "Computer Science And Engg", some "OPEN",
        some "10", some "50", some 2023, some 1, none⟩,
       ⟨some "IIT Bombay", some "Computer Science", some "OPEN",
        some "5", some "40", some 2023, some 2, none⟩] =
    [("IIT Bombay - Computer Science",
      { categories := [("OPEN", ⟨some 5, 50, 2, [2023], [1, 2]⟩)]
        value_for_money := 3
        college := "IIT Bombay"
        branch := "Computer Science"
        data_points := 2 })] := by
  decide

/-! ## C8: the seat-type mapper -/

/-- C8: `map_seat_type_to_category` applies its case-insensitive substring
tests in the fixed priority order OPEN (suppressed by PWD), OBC, SC, ST,
EWS, else GENERAL, first match winning (stated as agreement with the
first-match-wins rule-list evaluator `map_seat_type_spec`); it always
returns one of the six categories; and `"OPEN-PWD"` maps to `"GENERAL"`,
not `"OPEN"`. -/
theorem c8_seat_type_priority_order :
    (∀ s : String,
      map_seat_type_to_category s = map_seat_type_spec s ∧
      map_seat_type_to_category s ∈
        ["OPEN", "OBC-NCL", "SC", "ST", "EWS", "GENERAL"]) ∧
    map_seat_type_to_category "OPEN-PWD" = "GENERAL" ∧
    map_seat_type_to_category "OPEN-PWD" ≠ "OPEN" := by
  refine ⟨fun s => ⟨rfl, ?_⟩, by decide, by decide⟩
  simp only [map_seat_type_to_category]
  split_ifs <;> simp

/-! ## C9: rank equal to min_rank yields the highest chance tier -/

/-- C9: in both query layers, a query rank exactly equal to a category's
`min_rank` is assigned the highest admission-chance tier — `"🟢 HIGH"` in
`improved_recomedation.py` (stated for every model entry that passes the
branch filter and carries the category) and `"High"` in `recommender.py` —
not the medium tier. -/
theorem c9_min_rank_highest_tier :
    (∀ (category branchPref : String) (e : QEntry) (st : QStats) (row : RecRow),
      lookupA e.categories category = some st →
      recommend_entry category st.min_rank branchPref e = some row →
      row.chance = "🟢 HIGH") ∧
    (∀ minRank maxRank : ℤ,
      chance_basic minRank minRank maxRank = "High") := by
  constructor
  · intro category branchPref e st row hlook hrec
    unfold recommend_entry at hrec
    rw [hlook] at hrec
    split_ifs at hrec
    cases hrec
    show (chance_improved st.min_rank st.min_rank st.max_rank).1 = "🟢 HIGH"
    unfold chance_improved
    rw [if_pos (le_refl st.min_rank)]
  · intro minRank maxRank
    simp [chance_basic]

/-- Witness for C9 at a concrete entry. -/
theorem c9_min_rank_highest_tier_witness :
    (⟨"A", "Computer Science", "OPEN", 100, 200, "🟢 HIGH", 3, 3⟩ : RecRow).chance
      = "🟢 HIGH" :=
  c9_min_rank_highest_tier.1 "OPEN" "Any" ⟨"A", "Computer Science", 3, [("OPEN", ⟨100, 200⟩)]⟩
    ⟨100, 200⟩ ⟨"A", "Computer Science", "OPEN", 100, 200, "🟢 HIGH", 3, 3⟩
    (by decide) (by decide)

/-! ## C10: the Physics rule of `extract_branch_from_program` is unreachable -/

/-- C10: `extract_branch_from_program` never returns `"Physics"`: any string
matched by the Physics patterns (`"PHYSICS"`, `"ENGINEERING PHYSICS"`)
contains the substring `"CS"` and is captured by the earlier
Computer-Science rule. -/
theorem firstBranch_ne_of (b : String) (hb : b ≠ "Other")
    (rules : List (String × List String)) (u : List Char)
    (h : ∀ br alts, (br, alts) ∈ rules → br = b → matchesAny alts u = true → False) :
    firstBranch rules u ≠ b := by
  induction rules with
  | nil =>
    intro he
    exact hb he.symm
  | cons p rest ih =>
    obtain ⟨br, alts⟩ := p
    show (if matchesAny alts u then br else firstBranch rest u) ≠ b
    split_ifs with hm
    · intro heq
      exact h br alts (List.mem_cons_self _ _) heq hm
    · exact ih fun br' alts' hmem => h br' alts' (List.mem_cons_of_mem _ hmem)

theorem c10_physics_unreachable (s : String) :
    extract_branch_from_program s ≠ "Physics" := by
  unfold extract_branch_from_program
  set u := pyUpper s.data with hu
  by_cases hcs : listContains "CS".data u = true
  · have hm : matchesAny ["COMPUTER SCIENCE", "CS", "CSE", "COMPUTER ENGG", "COMPUTER"] u
        = true := by
      simp only [matchesAny, List.any_cons, List.any_nil, Bool.or_eq_true]
      exact Or.inr (Or.inl hcs)
    have hfb : firstBranch branchPatterns u = "Computer Science" := by
      show (if matchesAny ["COMPUTER SCIENCE", "CS", "CSE", "COMPUTER ENGG", "COMPUTER"] u
        then "Computer Science" else firstBranch branchPatterns.tail u) = _
      rw [if_pos hm]
    rw [hfb]
    decide
  · have htr : ∀ w : List Char, listContains "CS".data w = true →
        listContains w u = true → False := by
      intro w hw hcont
      exact hcs ((listContains_iff _ _).mpr
        (List.IsInfix.trans ((listContains_iff _ _).mp hw)
          ((listContains_iff _ _).mp hcont)))
    apply firstBranch_ne_of "Physics" (by decide)
    intro br alts hmem heq hmatch
    subst heq
    simp only [branchPatterns, List.mem_cons, List.not_mem_nil, or_false] at hmem
    rcases hmem with h | h | h | h | h | h | h | h | h | h | h | h | h | h | h <;>
      injection h with h1 h2
    all_goals first
      | exact absurd h1 (by decide)
      | (subst h2
         simp only [matchesAny, List.any_cons, List.any_nil, Bool.or_eq_true,
           Bool.or_false] at hmatch
         rcases hmatch with hp | hp
         · exact htr "PHYSICS".data (by decide) hp
         · exact htr "ENGINEERING PHYSICS".data (by decide) hp)

/-! ## C6: fuzzy-mapping threshold and single-target invariants -/

theorem mapping_row_shape (scorer : String → String → ℕ) (targets : List String)
    (a : String) (kv : String × MappingEntry)
    (h : (if a = "" then none
          else
            match extractOne scorer a targets with
            | none => none
            | some (bestMatch, score) =>
              if score ≥ 75 then some (a, ⟨bestMatch, score⟩) else none) = some kv) :
    kv.1 = a ∧ 75 ≤ kv.2.match_score := by
  by_cases ha : a = ""
  · rw [if_pos ha] at h
    cases h
  · rw [if_neg ha] at h
    split at h
    · cases h
    · rename_i b sc
      split_ifs at h with h75
      · cases h
        exact ⟨rfl, h75⟩

theorem keys_of_filterMap_sublist {α β : Type} (f : α → Option (α × β))
    (hf : ∀ a kv, f a = some kv → kv.1 = a) :
    ∀ l : List α, ((l.filterMap f).map Prod.fst).Sublist l := by
  intro l
  induction l with
  | nil => simp
  | cons a rest ih =>
    rcases ha : f a with _ | kv
    · simp only [List.filterMap_cons, ha]
      exact ih.cons a
    · simp only [List.filterMap_cons, ha, List.map_cons]
      rw [hf a kv ha]
      exact ih.cons₂ a

/-- C6: every entry placed in the college mapping has similarity at least
75, and each (normalized, deduplicated) admission-side source name is
mapped to at most one rating-side target: the mapping's keys are
duplicate-free.  Holds for an arbitrary similarity scorer. -/
theorem c6_mapping_threshold_and_functionality
    (scorer : String → String → ℕ) (admissionNames vfmNames : List String) :
    (∀ kv ∈ create_college_mappings scorer admissionNames vfmNames,
      75 ≤ kv.2.match_score) ∧
    ((create_college_mappings scorer admissionNames vfmNames).map Prod.fst).Nodup := by
  constructor
  · intro kv hkv
    unfold create_college_mappings at hkv
    obtain ⟨a, _, ha⟩ := List.mem_filterMap.mp hkv
    exact (mapping_row_shape scorer _ a kv ha).2
  · unfold create_college_mappings
    exact List.Sublist.nodup
      (keys_of_filterMap_sublist _
        (fun a kv h => (mapping_row_shape scorer _ a kv h).1) _)
      (List.nodup_dedup _)

/-- Witness for C6 at a concrete scorer and name sets. -/
theorem c6_mapping_threshold_and_functionality_witness :
    75 ≤ (⟨"AB", 80⟩ : MappingEntry).match_score :=
  (c6_mapping_threshold_and_functionality (fun _ _ => 80) ["AB"] ["AB"]).1
    ("AB", ⟨"AB", 80⟩) (by decide)

/-! ## C3: per-row rating collection and the 0.7 penalty -/

/-- C3 counterexample: when both the row's classified branch and the query
branch are `"Other"`, the equality test of `get_vfm_score` fires first and
the rating is collected at full weight — the 0.7 penalty is not applied,
contradicting "the 0.7 weight penalty is applied to the row's rating value
precisely in the either-branch-is-Other case (including when both branches
are 'Other')". -/
theorem c3_both_other_no_penalty :
    extract_branch_from_course "ZZZZ" = "Other" ∧
    rowScore "Other" ⟨"X", "ZZZZ", 4⟩ = some 4 ∧
    some (4 : ℚ) ≠ some ((4 : ℚ) * (7 / 10)) := by
  refine ⟨by decide, rfl, ?_⟩
  intro h
  rw [Option.some_inj] at h
  norm_num at h

/-- C3 amended: a selected row's rating is collected exactly when the
classified branch equals the query branch, or one branch name is a
substring of the other, or either branch is `"Other"`; the 0.7 penalty is
applied precisely when either branch is `"Other"` and the branches are
neither equal nor in a substring relation — in particular, when both
branches are `"Other"` the rating is collected at full weight. -/
theorem c3_collection_and_penalty (branch : String) (r : VfmRow) :
    ((rowScore branch r).isSome = true ↔
      (extract_branch_from_course r.course = branch ∨
       strContains branch (extract_branch_from_course r.course) = true ∨
       strContains (extract_branch_from_course r.course) branch = true ∨
       extract_branch_from_course r.course = "Other" ∨ branch = "Other")) ∧
    ((extract_branch_from_course r.course = branch ∨
      strContains branch (extract_branch_from_course r.course) = true ∨
      strContains (extract_branch_from_course r.course) branch = true) →
      rowScore branch r = some r.score) ∧
    (¬(extract_branch_from_course r.course = branch ∨
       strContains branch (extract_branch_from_course r.course) = true ∨
       strContains (extract_branch_from_course r.course) branch = true) →
     (extract_branch_from_course r.course = "Other" ∨ branch = "Other") →
      rowScore branch r = some (r.score * (7 / 10))) := by
  simp only [rowScore]
  by_cases h1 : extract_branch_from_course r.course = branch ∨
      strContains branch (extract_branch_from_course r.course) = true ∨
      strContains (extract_branch_from_course r.course) branch = true
  · rw [if_pos h1]
    exact ⟨iff_of_true rfl (by tauto), fun _ => rfl, fun hn _ => absurd h1 hn⟩
  · rw [if_neg h1]
    by_cases h2 : extract_branch_from_course r.course = "Other" ∨ branch = "Other"
    · rw [if_pos h2]
      exact ⟨iff_of_true rfl (by tauto), fun hh => absurd hh h1, fun _ _ => rfl⟩
    · rw [if_neg h2]
      exact ⟨iff_of_false (by simp) (by tauto), fun hh => absurd hh h1,
        fun _ hh => absurd hh h2⟩

/-- Witness for C3 (amended) at a concrete penalty-case input: the course
`"ZZZZ"` classifies to `"Other"`, the query branch is `"Electrical"`, and
the rating 4 is collected as 4 * 0.7. -/
theorem c3_collection_and_penalty_witness :
    rowScore "Electrical" ⟨"X", "ZZZZ", 4⟩ = some ((4 : ℚ) * (7 / 10)) :=
  (c3_collection_and_penalty "Electrical" ⟨"X", "ZZZZ", 4⟩).2.2
    (by decide) (Or.inl (by decide))

/-! ## C4: rating-resolver bounds and the 3.0 default -/

theorem round2_bounds {x : ℚ} (h0 : 0 ≤ x) (h5 : x ≤ 5) :
    0 ≤ round2 x ∧ round2 x ≤ 5 := by
  unfold round2
  constructor
  · apply div_nonneg _ (by norm_num : (0:ℚ) ≤ 100)
    have h : (0 : ℤ) ≤ ⌊x * 100 + 1 / 2⌋ := by
      apply Int.le_floor.mpr
      push_cast
      linarith
    exact_mod_cast h
  · rw [div_le_iff (by norm_num : (0:ℚ) < 100)]
    have h1 : ⌊x * 100 + 1 / 2⌋ < 501 := by
      apply Int.floor_lt.mpr
      push_cast
      linarith
    have h2 : ⌊x * 100 + 1 / 2⌋ ≤ 500 := by omega
    calc (⌊x * 100 + 1 / 2⌋ : ℚ) ≤ 500 := by exact_mod_cast h2
    _ ≤ 5 * 100 := by norm_num

theorem listMean_bounds {l : List ℚ} (hne : l ≠ [])
    (h : ∀ x ∈ l, 0 ≤ x ∧ x ≤ 5) : 0 ≤ listMean l ∧ listMean l ≤ 5 := by
  have hlen : 0 < (l.length : ℚ) := by
    have hp := List.length_pos.mpr hne
    exact_mod_cast hp
  unfold listMean
  constructor
  · exact div_nonneg (List.sum_nonneg fun x hx => (h x hx).1) (le_of_lt hlen)
  · rw [div_le_iff₀ hlen]
    have hs := List.sum_le_card_nsmul l 5 fun x hx => (h x hx).2
    rw [nsmul_eq_mul] at hs
    linarith

theorem rowScore_bounds {branch : String} {r : VfmRow} (h0 : 0 ≤ r.score)
    (h5 : r.score ≤ 5) {v : ℚ} (hv : rowScore branch r = some v) :
    0 ≤ v ∧ v ≤ 5 := by
  simp only [rowScore] at hv
  split_ifs at hv
  · cases hv
    exact ⟨h0, h5⟩
  · cases hv
    constructor
    · exact mul_nonneg h0 (by norm_num)
    · have hm := mul_le_mul_of_nonneg_right h5 (by norm_num : (0:ℚ) ≤ 7 / 10)
      linarith

/-- C4: when every rating in the sheet lies in [0, 5], `get_vfm_score`
returns a value in [0, 5]; and when the normalized college name has no
mapping, or no rating rows match the mapped target name, the result is
exactly 3.0. -/
theorem c4_vfm_bounds_and_default
    (vfmData : List VfmRow) (mappings : List (String × MappingEntry))
    (collegeName branch : String)
    (hr : ∀ r ∈ vfmData, 0 ≤ r.score ∧ r.score ≤ 5) :
    (0 ≤ get_vfm_score vfmData mappings collegeName branch ∧
     get_vfm_score vfmData mappings collegeName branch ≤ 5) ∧
    (lookupA mappings (normalize_college_name collegeName) = none →
      get_vfm_score vfmData mappings collegeName branch = 3) ∧
    (∀ me, lookupA mappings (normalize_college_name collegeName) = some me →
      vfmData.filter (fun r => normalize_college_name r.institute = me.vfm_name) = [] →
      get_vfm_score vfmData mappings collegeName branch = 3) := by
  refine ⟨?_, ?_, ?_⟩
  · -- bounds
    by_cases hempty : vfmData = []
    · simp only [get_vfm_score, if_pos hempty]
      norm_num
    · rcases hmap : lookupA mappings (normalize_college_name collegeName) with _ | me
      · simp only [get_vfm_score, if_neg hempty, hmap]
        norm_num
      · simp only [get_vfm_score, if_neg hempty, hmap]
        by_cases hfil : vfmData.filter
            (fun r => normalize_college_name r.institute = me.vfm_name) = []
        · rw [if_pos hfil]
          norm_num
        · rw [if_neg hfil]
          have hrecs : ∀ rr ∈ vfmData.filter
              (fun r => normalize_college_name r.institute = me.vfm_name),
              0 ≤ rr.score ∧ rr.score ≤ 5 :=
            fun rr hrr => hr rr (List.mem_of_mem_filter hrr)
          by_cases hsc : (vfmData.filter
              (fun r => normalize_college_name r.institute = me.vfm_name)).filterMap
              (rowScore branch) ≠ []
          · rw [if_pos hsc]
            have helem : ∀ x ∈ (vfmData.filter
                (fun r => normalize_college_name r.institute = me.vfm_name)).filterMap
                (rowScore branch), 0 ≤ x ∧ x ≤ 5 := by
              intro x hx
              obtain ⟨rr, hrr, hrx⟩ := List.mem_filterMap.mp hx
              exact rowScore_bounds (hrecs rr hrr).1 (hrecs rr hrr).2 hrx
            obtain ⟨hA, hB⟩ := listMean_bounds hsc helem
            exact round2_bounds hA hB
          · rw [if_neg hsc]
            have hmne : (vfmData.filter
                (fun r => normalize_college_name r.institute = me.vfm_name)).map
                VfmRow.score ≠ [] := by
              intro hmm
              exact hfil (List.map_eq_nil.mp hmm)
            have hmb : ∀ x ∈ (vfmData.filter
                (fun r => normalize_college_name r.institute = me.vfm_name)).map
                VfmRow.score, 0 ≤ x ∧ x ≤ 5 := by
              intro x hx
              obtain ⟨rr, hrr, hrx⟩ := List.mem_map.mp hx
              exact hrx ▸ hrecs rr hrr
            obtain ⟨hma, hmb5⟩ := listMean_bounds hmne hmb
            have h8a : 0 ≤ listMean ((vfmData.filter
                (fun r => normalize_college_name r.institute = me.vfm_name)).map
                VfmRow.score) * (8 / 10) := by positivity
            have h8b : listMean ((vfmData.filter
                (fun r => normalize_college_name r.institute = me.vfm_name)).map
                VfmRow.score) * (8 / 10) ≤ 5 := by nlinarith
            exact round2_bounds h8a h8b
  · -- absent mapping
    intro hnone
    by_cases hempty : vfmData = []
    · simp only [get_vfm_score, if_pos hempty]
    · simp only [get_vfm_score, if_neg hempty, hnone]
  · -- mapping present but no matching rating rows
    intro me hme hfil
    by_cases hempty : vfmData = []
    · simp only [get_vfm_score, if_pos hempty]
    · simp only [get_vfm_score, if_neg hempty, hme]
      rw [if_pos hfil]

/-- Witness for C4 at a concrete (empty) rating sheet. -/
theorem c4_vfm_bounds_and_default_witness :
    0 ≤ get_vfm_score [] [] "X" "Computer Science" ∧
    get_vfm_score [] [] "X" "Computer Science" ≤ 5 :=
  (c4_vfm_bounds_and_default [] [] "X" "Computer Science"
    (fun r hmem => absurd hmem (List.not_mem_nil r))).1

/-! ## C2: row-level error handling in preprocessing -/

theorem preprocess_append (l1 l2 : List RawRow) :
    preprocess (l1 ++ l2) = preprocess l1 ++ preprocess l2 := by
  unfold preprocess
  rw [List.filterMap_append, List.filter_append]

/-- C2 counterexample: a raw row whose seat-type cell is missing is NOT
skipped by preprocessing — it is kept, with the seat type defaulted to
`"OPEN"` — contradicting "for every raw admission row in which ... the
seat-type field is missing or unparseable, preprocessing skips that row". -/
theorem c2_missing_seat_type_kept :
    preprocess
      [⟨some "IIT B", some "CSE", none, some "10", some "20", none, none, none⟩] =
      [⟨"IIT B", "Computer Science", "OPEN", 10, 20, 2023, 1, "Unknown"⟩] ∧
    preprocess
      [⟨some "IIT B", some "CSE", none, some "10", some "20", none, none, none⟩] ≠
      [] := by
  exact ⟨by decide, by decide⟩

/-- C2 amended: a raw row with a missing institute cell or an
unparseable/missing rank cell (rank sentinel 0) contributes nothing to the
processed data, wherever it occurs, and never aborts the batch; but a row
whose seat-type cell is missing is kept, with its seat type defaulted to
`"OPEN"` (so its category is `"OPEN"`). -/
theorem c2_row_error_handling (pre post : List RawRow) (r : RawRow) :
    ((r.institute = none ∨ parse_rank r.opening = 0 ∨ parse_rank r.closing = 0) →
      preprocess (pre ++ r :: post) = preprocess (pre ++ post)) ∧
    (r.seatType = none → ∀ p, preprocessRow r = some p → p.category = "OPEN") := by
  constructor
  · intro hbad
    have hmid : preprocess [r] = [] := by
      rcases hbad with hi | ho | hc
      · unfold preprocess
        rcases hp : preprocessRow r with _ | p
        · simp [List.filterMap_cons, hp]
        · have hcol : p.college = "Unknown" := by
            simp only [preprocessRow] at hp
            rw [hi] at hp
            split_ifs at hp
            cases hp
            show (⟨pyStrip ((none : Option String).getD "Unknown").data⟩ : String) =
              "Unknown"
            decide
          simp [List.filterMap_cons, hp, List.filter_cons, hcol]
      · have hp : preprocessRow r = none := by
          simp only [preprocessRow]
          rw [if_pos (Or.inl ho)]
        unfold preprocess
        simp [List.filterMap_cons, hp]
      · have hp : preprocessRow r = none := by
          simp only [preprocessRow]
          rw [if_pos (Or.inr hc)]
        unfold preprocess
        simp [List.filterMap_cons, hp]
    calc preprocess (pre ++ r :: post)
        = preprocess pre ++ (preprocess [r] ++ preprocess post) := by
          rw [show pre ++ r :: post = pre ++ ([r] ++ post) from rfl,
            preprocess_append, preprocess_append]
      _ = preprocess pre ++ preprocess post := by rw [hmid]; simp
      _ = preprocess (pre ++ post) := (preprocess_append pre post).symm
  · intro hseat p hp
    simp only [preprocessRow] at hp
    rw [hseat] at hp
    split_ifs at hp
    cases hp
    show map_seat_type_to_category ((none : Option String).getD "OPEN") = "OPEN"
    decide

/-- Witness for C2 (amended): a missing-institute row contributes nothing,
and a concrete missing-seat-type row is categorized `"OPEN"`. -/
theorem c2_row_error_handling_witness :
    preprocess ([] ++
        (⟨none, some "CSE", some "OPEN", some "10", some "20", none, none, none⟩ :
          RawRow) :: []) =
      preprocess ([] ++ []) ∧
    (⟨"IIT B", "Computer Science", "OPEN", 10, 20, 2023, 1, "Unknown"⟩ :
      PRec).category = "OPEN" := by
  constructor
  · exact (c2_row_error_handling [] []
      ⟨none, some "CSE", some "OPEN", some "10", some "20", none, none, none⟩).1
      (Or.inl rfl)
  · exact (c2_row_error_handling [] []
      ⟨some "IIT B", some "CSE", none, some "10", some "20", none, none, none⟩).2
      rfl ⟨"IIT B", "Computer Science", "OPEN", 10, 20, 2023, 1, "Unknown"⟩
      (by decide)

/-! ## C1: the aggregator invariant -/

theorem matchRecs_append (L : List PRec) (r : PRec) (k c : String) :
    matchRecs (L ++ [r]) k c =
      matchRecs L k c ++ (if keyOf r = k ∧ r.category = c then [r] else []) := by
  unfold matchRecs
  rw [List.filter_append]
  congr 1
  by_cases h : keyOf r = k ∧ r.category = c
  · rw [if_pos h]
    simp [List.filter_cons, h.1, h.2]
  · rw [if_neg h]
    rcases not_and_or.mp h with h1 | h1 <;> simp [List.filter_cons, h1]

theorem minOpen_append_single (L : List PRec) (r : PRec) :
    minOpen (L ++ [r]) = optMin (minOpen L) r.opening := by
  unfold minOpen
  rw [List.foldl_append]
  rfl

theorem maxClose_append_single (L : List PRec) (r : PRec) :
    maxClose (L ++ [r]) = max (maxClose L) r.closing := by
  unfold maxClose
  rw [List.foldl_append]
  rfl

theorem foldl_optMin_some (M : List PRec) (a : ℤ) :
    ∃ v, M.foldl (fun acc r => optMin acc r.opening) (some a) = some v ∧
      v ≤ a ∧ ∀ r ∈ M, v ≤ r.opening := by
  induction M generalizing a with
  | nil => exact ⟨a, rfl, le_refl a, by simp⟩
  | cons r' M ih =>
    obtain ⟨v, hv, hva, hvall⟩ := ih (min a r'.opening)
    refine ⟨v, hv, le_trans hva (min_le_left _ _), ?_⟩
    intro rr hrr
    rcases List.mem_cons.mp hrr with h | h
    · subst h
      exact le_trans hva (min_le_right _ _)
    · exact hvall rr h

theorem minOpen_spec {M : List PRec} (h : M ≠ []) :
    ∃ v, minOpen M = some v ∧ ∀ r ∈ M, v ≤ r.opening := by
  cases M with
  | nil => exact absurd rfl h
  | cons r M =>
    obtain ⟨v, hv, hva, hvall⟩ := foldl_optMin_some M r.opening
    refine ⟨v, hv, ?_⟩
    intro rr hrr
    rcases List.mem_cons.mp hrr with hh | hh
    · subst hh
      exact hva
    · exact hvall rr hh

theorem foldl_max_ge (M : List PRec) (a : ℤ) :
    a ≤ M.foldl (fun acc r => max acc r.closing) a ∧
    ∀ r ∈ M, r.closing ≤ M.foldl (fun acc r => max acc r.closing) a := by
  induction M generalizing a with
  | nil => exact ⟨le_refl a, by simp⟩
  | cons r' M ih =>
    obtain ⟨h1, h2⟩ := ih (max a r'.closing)
    refine ⟨le_trans (le_max_left _ _) h1, ?_⟩
    intro rr hrr
    rcases List.mem_cons.mp hrr with hh | hh
    · subst hh
      exact le_trans (le_max_right a rr.closing) h1
    · exact h2 rr hh

theorem maxClose_ge {M : List PRec} {r : PRec} (h : r ∈ M) :
    r.closing ≤ maxClose M :=
  (foldl_max_ge M 0).2 r h

theorem aggInv_nil : AggInv [] [] := by
  refine ⟨by simp, fun k _ c => rfl, fun k e hk => ?_⟩
  cases hk

theorem aggInv_step {L : List PRec} {m : List (String × ModelEntry)}
    (vfm : String → String → ℚ) (inv : AggInv L m) (r : PRec) :
    AggInv (L ++ [r]) (trainStep vfm m r) := by
  obtain ⟨hnd, hnone, hsome⟩ := inv
  simp only [trainStep]
  unfold AggInv
  refine ⟨nodup_keys_updAssoc _ _ _ hnd, ?_, ?_⟩
  · -- keys still absent have no matching records
    intro k hk c
    rw [lookupA_updAssoc] at hk
    split_ifs at hk with hkey
    rw [matchRecs_append, if_neg fun hh => hkey (hh.1.symm), hnone k hk c]
    rfl
  · -- present keys are correctly characterized
    intro k e hk
    rw [lookupA_updAssoc] at hk
    by_cases hkey : k = r.college ++ " - " ++ r.branch
    · rw [if_pos hkey] at hk
      subst hkey
      cases hold : lookupA m (r.college ++ " - " ++ r.branch) with
      | none =>
        rw [hold] at hk
        have he : e = { categories := [(r.category, updStats r freshStats)]
                        value_for_money := vfm r.college r.branch
                        college := r.college, branch := r.branch
                        data_points := 1 } := by
          injection hk with he'
          exact he'.symm
        subst he
        refine ⟨rfl, ⟨r, List.mem_append_right _ (List.mem_singleton_self r), rfl, rfl⟩,
          le_refl 1, ?_, ?_⟩
        · intro c hc
          have hc' : (if r.category = c then some (updStats r freshStats) else none) =
              none := hc
          have hcat : ¬(r.category = c) := by
            intro hcc
            rw [if_pos hcc] at hc'
            cases hc'
          rw [matchRecs_append, if_neg fun hh => hcat hh.2, hnone _ hold c]
          rfl
        · intro c s hc
          have hc' : (if r.category = c then some (updStats r freshStats) else none) =
              some s := hc
          by_cases hcat : r.category = c
          · rw [if_pos hcat] at hc'
            cases hc'
            rw [matchRecs_append, if_pos ⟨rfl, hcat⟩, hnone _ hold c]
            exact ⟨rfl, rfl, by simp⟩
          · rw [if_neg hcat] at hc'
            cases hc'
      | some eOld =>
        rw [hold] at hk
        have he : e = { categories :=
                          updAssoc r.category freshStats (updStats r) eOld.categories
                        value_for_money := eOld.value_for_money
                        college := eOld.college, branch := eOld.branch
                        data_points := eOld.data_points + 1 } := by
          injection hk with he'
          exact he'.symm
        subst he
        obtain ⟨hkeqO, hexO, hdpO, hcnoneO, hcsomeO⟩ := hsome _ eOld hold
        refine ⟨hkeqO, ?_, Nat.le_add_left 1 eOld.data_points, ?_, ?_⟩
        · obtain ⟨r0, hr0, hc0, hb0⟩ := hexO
          exact ⟨r0, List.mem_append_left _ hr0, hc0, hb0⟩
        · intro c hc
          rw [lookupA_updAssoc] at hc
          split_ifs at hc with hcat
          rw [matchRecs_append, if_neg fun hh => hcat (hh.2.symm), hcnoneO c hc]
          rfl
        · intro c s hc
          rw [lookupA_updAssoc] at hc
          by_cases hcat : c = r.category
          · rw [if_pos hcat] at hc
            subst hcat
            cases holdc : lookupA eOld.categories r.category with
            | none =>
              rw [holdc] at hc
              have hs : s = updStats r freshStats := by
                injection hc with hs'
                exact hs'.symm
              subst hs
              rw [matchRecs_append, if_pos ⟨rfl, rfl⟩, hcnoneO r.category holdc]
              exact ⟨rfl, rfl, by simp⟩
            | some sOld =>
              rw [holdc] at hc
              have hs : s = updStats r sOld := by
                injection hc with hs'
                exact hs'.symm
              subst hs
              obtain ⟨hminO, hmaxO, hneO⟩ := hcsomeO r.category sOld holdc
              rw [matchRecs_append, if_pos ⟨rfl, rfl⟩]
              refine ⟨?_, ?_, by simp⟩
              · rw [minOpen_append_single, ← hminO]
                rfl
              · rw [maxClose_append_single, ← hmaxO]
                rfl
          · rw [if_neg hcat] at hc
            obtain ⟨hminO, hmaxO, hneO⟩ := hcsomeO c s hc
            rw [matchRecs_append, if_neg fun hh => hcat (hh.2.symm)]
            simp only [List.append_nil]
            exact ⟨hminO, hmaxO, hneO⟩
    · rw [if_neg hkey] at hk
      obtain ⟨hkeq, hex, hdp, hcnone, hcsome⟩ := hsome k e hk
      refine ⟨hkeq, ?_, hdp, ?_, ?_⟩
      · obtain ⟨r0, hr0, hc0, hb0⟩ := hex
        exact ⟨r0, List.mem_append_left _ hr0, hc0, hb0⟩
      · intro c hc
        rw [matchRecs_append, if_neg fun hh => hkey (hh.1.symm), hcnone c hc]
        rfl
      · intro c s hc
        obtain ⟨hmin, hmax, hne⟩ := hcsome c s hc
        rw [matchRecs_append, if_neg fun hh => hkey (hh.1.symm)]
        simp only [List.append_nil]
        exact ⟨hmin, hmax, hne⟩

theorem aggInv_foldl (vfm : String → String → ℚ) :
    ∀ (L L0 : List PRec) (m : List (String × ModelEntry)),
      AggInv L0 m → AggInv (L0 ++ L) (L.foldl (trainStep vfm) m) := by
  intro L
  induction L with
  | nil =>
    intro L0 m h
    simpa using h
  | cons r L ih =>
    intro L0 m h
    have h2 := ih (L0 ++ [r]) (trainStep vfm m r) (aggInv_step vfm h r)
    rw [List.append_assoc] at h2
    simpa using h2

theorem aggInv_trainAggregate (vfm : String → String → ℚ) (precs : List PRec) :
    AggInv precs (trainAggregate vfm precs) := by
  have h := aggInv_foldl vfm precs [] [] aggInv_nil
  simpa [trainAggregate] using h

/-- The final `data_points >= 1` filter of `train_model` keeps every entry. -/
theorem train_model_eq (vfmData : List VfmRow)
    (mappings : List (String × MappingEntry)) (raws : List RawRow) :
    train_model vfmData mappings raws =
      trainAggregate (get_vfm_score vfmData mappings) (preprocess raws) := by
  unfold train_model
  apply List.filter_eq_self.mpr
  intro kv hkv
  obtain ⟨hnd, hnone, hsome⟩ :=
    aggInv_trainAggregate (get_vfm_score vfmData mappings) (preprocess raws)
  have hlk := lookupA_of_mem_nodup hnd (show (kv.1, kv.2) ∈ _ from hkv)
  have hdp := (hsome kv.1 kv.2 hlk).2.2.1
  exact decide_eq_true hdp

theorem firstBranch_mem (rules : List (String × List String)) (u : List Char) :
    firstBranch rules u ∈ rules.map Prod.fst ∨ firstBranch rules u = "Other" := by
  induction rules with
  | nil => exact Or.inr rfl
  | cons p rest ih =>
    obtain ⟨b, alts⟩ := p
    simp only [firstBranch]
    split_ifs with hm
    · exact Or.inl (List.mem_cons_self _ _)
    · rcases ih with h | h
      · exact Or.inl (List.mem_cons_of_mem _ h)
      · exact Or.inr h

theorem extract_branch_mem_taxonomy (s : String) :
    extract_branch_from_program s ∈ branchTaxonomy := by
  unfold extract_branch_from_program
  rcases firstBranch_mem branchPatterns (pyUpper s.data) with h | h
  · have hsub : ∀ x ∈ branchPatterns.map Prod.fst, x ∈ branchTaxonomy := by decide
    exact hsub _ h
  · rw [h]
    decide

theorem taxonomy_no_dash : ∀ b ∈ branchTaxonomy, ¬ '-' ∈ b.data := by decide

theorem sep_inj {α : Type} (x : α) :
    ∀ (a1 a2 t1 t2 : List α), x ∉ a1 → x ∉ a2 →
      a1 ++ x :: t1 = a2 ++ x :: t2 → a1 = a2 ∧ t1 = t2 := by
  intro a1
  induction a1 with
  | nil =>
    intro a2 t1 t2 _ hx2 heq
    cases a2 with
    | nil => simpa using heq
    | cons y a2 =>
      simp only [List.nil_append, List.cons_append, List.cons.injEq] at heq
      exfalso
      apply hx2
      rw [← heq.1]
      exact List.mem_cons_self _ _
  | cons y a1 ih =>
    intro a2 t1 t2 hx1 hx2 heq
    cases a2 with
    | nil =>
      simp only [List.cons_append, List.nil_append, List.cons.injEq] at heq
      exfalso
      apply hx1
      rw [heq.1]
      exact List.mem_cons_self _ _
    | cons z a2 =>
      simp only [List.cons_append, List.cons.injEq] at heq
      obtain ⟨hyz, heq2⟩ := heq
      have hx1' : x ∉ a1 := fun hh => hx1 (List.mem_cons_of_mem _ hh)
      have hx2' : x ∉ a2 := fun hh => hx2 (List.mem_cons_of_mem _ hh)
      obtain ⟨ha, ht⟩ := ih a2 t1 t2 hx1' hx2' heq2
      exact ⟨by rw [hyz, ha], ht⟩

theorem key_split_inj {c1 b1 c2 b2 : String}
    (h1 : ¬ '-' ∈ b1.data) (h2 : ¬ '-' ∈ b2.data)
    (heq : c1 ++ " - " ++ b1 = c2 ++ " - " ++ b2) : c1 = c2 ∧ b1 = b2 := by
  have hdata : (c1.data ++ [' ', '-', ' ']) ++ b1.data =
      (c2.data ++ [' ', '-', ' ']) ++ b2.data := by
    have h := congrArg String.data heq
    simpa [String.data_append] using h
  have hrev : (b1.data.reverse ++ [' ']) ++ '-' :: (' ' :: c1.data.reverse) =
      (b2.data.reverse ++ [' ']) ++ '-' :: (' ' :: c2.data.reverse) := by
    have h := congrArg List.reverse hdata
    simp only [List.reverse_append] at h
    simpa [List.append_assoc] using h
  have hm1 : '-' ∉ b1.data.reverse ++ [' '] := by
    intro hh
    rcases List.mem_append.mp hh with hh | hh
    · exact h1 (List.mem_reverse.mp hh)
    · simp at hh
  have hm2 : '-' ∉ b2.data.reverse ++ [' '] := by
    intro hh
    rcases List.mem_append.mp hh with hh | hh
    · exact h2 (List.mem_reverse.mp hh)
    · simp at hh
  obtain ⟨ha, ht⟩ := sep_inj '-' _ _ _ _ hm1 hm2 hrev
  constructor
  · injection ht with _ htl
    exact string_ext (List.reverse_injective htl)
  · have hb := List.append_cancel_right ha
    exact string_ext (List.reverse_injective hb)

theorem preprocess_branch_taxonomy (raws : List RawRow) :
    ∀ p ∈ preprocess raws, p.branch ∈ branchTaxonomy := by
  intro p hp
  unfold preprocess at hp
  obtain ⟨raw, _, hraw⟩ := List.mem_filterMap.mp (List.mem_of_mem_filter hp)
  simp only [preprocessRow] at hraw
  split_ifs at hraw
  cases hraw
  exact extract_branch_mem_taxonomy _

/-- C1 counterexample: `train_model` never compares `Opening_Rank` with
`Closing_Rank`, so a single admission row with opening rank 50 and closing
rank 10 yields an entry whose OPEN stats have `min_rank = 50 > 10 =
max_rank`, violating "the stored min_rank is less than or equal to the
stored max_rank". -/
theorem c1_min_above_max_counterexample :
    train_model [] []
      [⟨some "A", some "CSE", some "OPEN", some "50", some "10",
        some 2023, some 1, none⟩] =
    [("A - Computer Science",
      { categories := [("OPEN", ⟨some 50, 10, 1, [2023], [1]⟩)]
        value_for_money := 3
        college := "A"
        branch := "Computer Science"
        data_points := 1 })] ∧
    ¬((50 : ℤ) ≤ 10) :=
  ⟨by decide, by decide⟩

/-- C1 amended: unconditionally, `min_rank` is exactly the fold of `min`
over the `Opening_Rank` values — and `max_rank` exactly the fold of `max`
over the `Closing_Rank` values — of the records carrying that exact key
and category, those records are nonempty, and each of them carries the
entry's own college and branch (so no record of another branch or category
is ever mixed in); and provided every preprocessed record has
`Opening_Rank ≤ Closing_Rank` (which the code never checks — the claim
fails without this hypothesis), the stats satisfy `min_rank ≤ max_rank`. -/
theorem c1_aggregator_invariant (vfmData : List VfmRow)
    (mappings : List (String × MappingEntry)) (raws : List RawRow) :
    ∀ k e, lookupA (train_model vfmData mappings raws) k = some e →
    ∀ c s, lookupA e.categories c = some s →
      s.min_rank = minOpen (matchRecs (preprocess raws) k c) ∧
      s.max_rank = maxClose (matchRecs (preprocess raws) k c) ∧
      matchRecs (preprocess raws) k c ≠ [] ∧
      (∀ p ∈ matchRecs (preprocess raws) k c,
        p.college = e.college ∧ p.branch = e.branch) ∧
      ((∀ p ∈ preprocess raws, p.opening ≤ p.closing) →
        ∃ v, s.min_rank = some v ∧ v ≤ s.max_rank) := by
  intro k e hk c s hc
  rw [train_model_eq] at hk
  obtain ⟨hnd, hnone, hsome⟩ :=
    aggInv_trainAggregate (get_vfm_score vfmData mappings) (preprocess raws)
  obtain ⟨hkeq, hex, hdp, hcnone, hcsome⟩ := hsome k e hk
  obtain ⟨hmin, hmax, hne⟩ := hcsome c s hc
  have hfields : ∀ p ∈ matchRecs (preprocess raws) k c,
      p.college = e.college ∧ p.branch = e.branch := by
    intro p hpM
    have hpL : p ∈ preprocess raws := List.mem_of_mem_filter hpM
    have hkey : keyOf p = k := by
      have hcond := (List.mem_filter.mp hpM).2
      rw [Bool.and_eq_true] at hcond
      exact beq_iff_eq.mp hcond.1
    obtain ⟨r0, hr0L, hr0c, hr0b⟩ := hex
    have hbt1 : p.branch ∈ branchTaxonomy := preprocess_branch_taxonomy raws p hpL
    have hbt2 : e.branch ∈ branchTaxonomy :=
      hr0b ▸ preprocess_branch_taxonomy raws r0 hr0L
    have heqk : p.college ++ " - " ++ p.branch = e.college ++ " - " ++ e.branch := by
      rw [← hkeq]
      exact hkey
    exact key_split_inj (taxonomy_no_dash p.branch hbt1)
      (taxonomy_no_dash e.branch hbt2) heqk
  refine ⟨hmin, hmax, hne, hfields, ?_⟩
  intro hoc
  obtain ⟨v, hv, hvall⟩ := minOpen_spec hne
  obtain ⟨p0, hp0⟩ := List.exists_mem_of_ne_nil _ hne
  have h2 : p0.opening ≤ p0.closing := hoc p0 (List.mem_of_mem_filter hp0)
  have h3 : p0.closing ≤ maxClose (matchRecs (preprocess raws) k c) := maxClose_ge hp0
  refine ⟨v, by rw [hmin, hv], ?_⟩
  rw [hmax]
  have h1 : v ≤ p0.opening := hvall p0 hp0
  linarith

/-- Witness for C1 (amended) at a concrete one-row training run. -/
theorem c1_aggregator_invariant_witness :
    (⟨some 10, 20, 1, [2023], [1]⟩ : CatStats).min_rank =
      minOpen (matchRecs (preprocess
        [⟨some "A", some "CSE", some "OPEN", some "10", some "20",
          some 2023, some 1, none⟩]) "A - Computer Science" "OPEN") ∧
    (∃ v, (⟨some 10, 20, 1, [2023], [1]⟩ : CatStats).min_rank = some v ∧
      v ≤ (⟨some 10, 20, 1, [2023], [1]⟩ : CatStats).max_rank) :=
  ⟨(c1_aggregator_invariant [] []
    [⟨some "A", some "CSE", some "OPEN", some "10", some "20",
      some 2023, some 1, none⟩]
    "A - Computer Science"
    ⟨[("OPEN", ⟨some 10, 20, 1, [2023], [1]⟩)], 3, "A", "Computer Science", 1⟩
    (by decide) "OPEN" ⟨some 10, 20, 1, [2023], [1]⟩ (by decide)).1,
   (c1_aggregator_invariant [] []
    [⟨some "A", some "CSE", some "OPEN", some "10", some "20",
      some 2023, some 1, none⟩]
    "A - Computer Science"
    ⟨[("OPEN", ⟨some 10, 20, 1, [2023], [1]⟩)], 3, "A", "Computer Science", 1⟩
    (by decide) "OPEN" ⟨some 10, 20, 1, [2023], [1]⟩ (by decide)).2.2.2.2
    (by decide)⟩

/-! ## C5: the normalizer and idempotence -/

theorem toNat_ofNat_valid (n : ℕ) (h : Nat.isValidChar n) :
    (Char.ofNat n).toNat = n := by
  simp [Char.ofNat, h, Char.ofNatAux, Char.toNat, UInt32.toNat]

theorem toUpper_idem (c : Char) : (c.toUpper).toUpper = c.toUpper := by
  unfold Char.toUpper
  by_cases h : 97 ≤ c.toNat ∧ c.toNat ≤ 122
  · rw [if_pos h]
    have ht : (Char.ofNat (c.toNat - 32)).toNat = c.toNat - 32 :=
      toNat_ofNat_valid _ (Or.inl (by omega))
    rw [if_neg (by rw [ht]; omega)]
  · rw [if_neg h, if_neg h]

theorem word_not_space {c : Char} (h : isWordChar c = true) : isPySpace c = false := by
  cases hsp : isPySpace c with
  | false => rfl
  | true =>
    exfalso
    simp only [isPySpace, Bool.or_eq_true, beq_iff_eq] at hsp
    rcases hsp with ((((h0 | h0) | h0) | h0) | h0) | h0 <;> subst h0 <;>
      exact absurd h (by decide)

theorem map_id_of_mem {f : Char → Char} :
    ∀ l : List Char, (∀ c ∈ l, f c = c) → l.map f = l := by
  intro l
  induction l with
  | nil => intro _; rfl
  | cons c rest ih =>
    intro h
    simp only [List.map_cons]
    rw [h c (List.mem_cons_self _ _), ih fun x hx => h x (List.mem_cons_of_mem _ hx)]

theorem replaceSkip_chars (key repl : List Char) :
    ∀ (z : List Char) (skip : ℕ) (c : Char),
      c ∈ replaceSkip key repl skip z → c ∈ z ∨ c ∈ repl := by
  intro z
  induction z with
  | nil =>
    intro skip c hc
    cases skip with
    | zero => cases hc
    | succ skip => cases hc
  | cons c0 rest ih =>
    intro skip c hc
    cases skip with
    | succ skip =>
      rcases ih skip c hc with hc | hc
      · exact Or.inl (List.mem_cons_of_mem _ hc)
      · exact Or.inr hc
    | zero =>
      simp only [replaceSkip] at hc
      split_ifs at hc with hif
      · rcases List.mem_append.mp hc with hc | hc
        · exact Or.inr hc
        · rcases ih _ c hc with hc | hc
          · exact Or.inl (List.mem_cons_of_mem _ hc)
          · exact Or.inr hc
      · rcases List.mem_cons.mp hc with hc | hc
        · exact Or.inl (hc ▸ List.mem_cons_self _ _)
        · rcases ih 0 c hc with hc | hc
          · exact Or.inl (List.mem_cons_of_mem _ hc)
          · exact Or.inr hc

theorem foldl_replace_chars (P : Char → Prop) :
    ∀ (rs : List (List Char × List Char)) (z : List Char),
      (∀ c ∈ z, P c) → (∀ kr ∈ rs, ∀ c ∈ kr.2, P c) →
      ∀ c ∈ rs.foldl (fun s kr => replaceAll kr.1 kr.2 s) z, P c := by
  intro rs
  induction rs with
  | nil =>
    intro z hz _ c hc
    exact hz c hc
  | cons kr rs ih =>
    intro z hz hrs c hc
    simp only [List.foldl_cons] at hc
    refine ih _ ?_ (fun kr' hkr' => hrs kr' (List.mem_cons_of_mem _ hkr')) c hc
    intro x hx
    rcases replaceSkip_chars kr.1 kr.2 _ _ x hx with hx | hx
    · exact hz x hx
    · exact hrs kr (List.mem_cons_self _ _) x hx

theorem stripSpecials_chars {z : List Char} {c : Char} (hc : c ∈ stripSpecials z) :
    (isWordChar c = true ∨ isPySpace c = true) ∧ (c ∈ z ∨ c = ' ') := by
  obtain ⟨c0, hc0, hfc⟩ := List.mem_map.mp hc
  by_cases h : isWordChar c0 || isPySpace c0
  · rw [if_pos h] at hfc
    subst hfc
    exact ⟨Bool.or_eq_true _ _ ▸ h, Or.inl hc0⟩
  · rw [if_neg h] at hfc
    subst hfc
    exact ⟨Or.inr (by decide), Or.inr rfl⟩

theorem collapseGo_chars :
    ∀ (z : List Char) (b : Bool) (c : Char), c ∈ collapseGo b z →
      c = ' ' ∨ (c ∈ z ∧ isPySpace c = false) := by
  intro z
  induction z with
  | nil =>
    intro b c hc
    cases hc
  | cons c0 rest ih =>
    intro b c hc
    simp only [collapseGo] at hc
    split_ifs at hc with h1 h2
    · rcases ih true c hc with h | h
      · exact Or.inl h
      · exact Or.inr ⟨List.mem_cons_of_mem _ h.1, h.2⟩
    · rcases List.mem_cons.mp hc with h | h
      · exact Or.inl h
      · rcases ih true c h with h | h
        · exact Or.inl h
        · exact Or.inr ⟨List.mem_cons_of_mem _ h.1, h.2⟩
    · rcases List.mem_cons.mp hc with h | h
      · subst h
        by_cases hsp : isPySpace c = true
        · exact absurd hsp (by simp [h1])
        · exact Or.inr ⟨List.mem_cons_self _ _, by simpa using hsp⟩
      · rcases ih false c h with h | h
        · exact Or.inl h
        · exact Or.inr ⟨List.mem_cons_of_mem _ h.1, h.2⟩

theorem collapseGo_head :
    ∀ (z : List Char) (c : Char), (collapseGo true z).head? = some c →
      isPySpace c = false := by
  intro z
  induction z with
  | nil =>
    intro c hc
    cases hc
  | cons c0 rest ih =>
    intro c hc
    simp only [collapseGo] at hc
    split_ifs at hc with h1
    · exact ih c hc
    · rw [List.head?_cons] at hc
      injection hc with hc
      subst hc
      simpa using h1

theorem collapse_chain :
    ∀ (z : List Char) (b : Bool),
      List.Chain' (fun a c => isPySpace a = false ∨ isPySpace c = false)
        (collapseGo b z) := by
  intro z
  induction z with
  | nil =>
    intro b
    show List.Chain' _ []
    exact List.chain'_nil
  | cons c0 rest ih =>
    intro b
    simp only [collapseGo]
    split_ifs with h1 h2
    · exact ih true
    · rw [List.chain'_cons']
      refine ⟨?_, ih true⟩
      intro y hy
      exact Or.inr (collapseGo_head rest y hy)
    · rw [List.chain'_cons']
      refine ⟨?_, ih false⟩
      intro y _
      exact Or.inl (by simpa using h1)

theorem dropWhile_head_not' (p : Char → Bool) (l : List Char) (c : Char)
    (h : (l.dropWhile p).head? = some c) : p c = false := by
  have hx := List.head?_dropWhile_not p l
  rw [h] at hx
  exact hx

theorem dropWhile_eq_self_of_head (p : Char → Bool) :
    ∀ l : List Char, (∀ c, l.head? = some c → p c = false) → l.dropWhile p = l := by
  intro l h
  cases l with
  | nil => rfl
  | cons c rest =>
    rw [List.dropWhile_cons, if_neg]
    rw [h c rfl]
    simp

theorem getLast?_dropWhile (p : Char → Bool) :
    ∀ l : List Char, l.dropWhile p ≠ [] →
      (l.dropWhile p).getLast? = l.getLast? := by
  intro l
  induction l with
  | nil =>
    intro h
    exact absurd rfl h
  | cons c rest ih =>
    intro h
    by_cases hc : p c
    · rw [List.dropWhile_cons, if_pos hc] at h ⊢
      rw [ih h]
      cases rest with
      | nil => exact absurd (by rfl) h
      | cons c1 rest1 => rw [List.getLast?_cons_cons]
    · rw [List.dropWhile_cons, if_neg hc]

theorem pyStrip_within (z : List Char) : pyStrip z <:+: z := by
  unfold pyStrip
  have h1 : z.dropWhile isPySpace <:+ z := List.dropWhile_suffix _
  have h2 : (z.dropWhile isPySpace).reverse.dropWhile isPySpace <:+
      (z.dropWhile isPySpace).reverse := List.dropWhile_suffix _
  have h3 : ((z.dropWhile isPySpace).reverse.dropWhile isPySpace).reverse <+:
      z.dropWhile isPySpace := by
    rw [← List.reverse_reverse (z.dropWhile isPySpace)] at h2
    rw [← List.reverse_suffix]
    simpa using h2
  exact List.IsInfix.trans (List.IsPrefix.isInfix h3) (List.IsSuffix.isInfix h1)

theorem pyStrip_head (z : List Char) (c : Char)
    (h : (pyStrip z).head? = some c) : isPySpace c = false := by
  unfold pyStrip at h
  rw [List.head?_reverse] at h
  have hne : (z.dropWhile isPySpace).reverse.dropWhile isPySpace ≠ [] := by
    intro hh
    rw [hh] at h
    cases h
  rw [getLast?_dropWhile _ _ hne, List.getLast?_reverse] at h
  exact dropWhile_head_not' _ _ _ h

theorem pyStrip_last (z : List Char) (c : Char)
    (h : (pyStrip z).getLast? = some c) : isPySpace c = false := by
  unfold pyStrip at h
  rw [List.getLast?_reverse] at h
  exact dropWhile_head_not' _ _ _ h

theorem pyStrip_eq_self (z : List Char)
    (hh : ∀ c, z.head? = some c → isPySpace c = false)
    (hl : ∀ c, z.getLast? = some c → isPySpace c = false) : pyStrip z = z := by
  unfold pyStrip
  rw [dropWhile_eq_self_of_head _ z hh]
  rw [dropWhile_eq_self_of_head _ z.reverse (fun c hc => hl c (by
    rw [List.head?_reverse] at hc
    exact hc))]
  exact List.reverse_reverse z

theorem replaceSkip_id_not_contains (key repl : List Char) (_hkey : key ≠ []) :
    ∀ (z : List Char), listContains key z = false →
      replaceSkip key repl 0 z = z := by
  intro z
  induction z with
  | nil =>
    intro _
    rfl
  | cons c rest ih =>
    intro hz
    simp only [listContains, Bool.or_eq_false_iff] at hz
    simp only [replaceSkip]
    rw [if_neg fun hh => by rw [hz.1] at hh; exact absurd hh.2 (by simp)]
    rw [ih hz.2]

theorem replaceAll_id_not_contains (key repl z : List Char) (hkey : key ≠ [])
    (hz : listContains key z = false) : replaceAll key repl z = z :=
  replaceSkip_id_not_contains key repl hkey z hz

theorem replaceSkip_single_self (c : Char) :
    ∀ z : List Char, replaceSkip [c] [c] 0 z = z := by
  intro z
  induction z with
  | nil => rfl
  | cons c0 rest ih =>
    simp only [replaceSkip]
    split_ifs with hif
    · have hc : c = c0 := by
        have hp := hif.2
        rw [List.isPrefixOf_iff_prefix] at hp
        obtain ⟨t, ht⟩ := hp
        have hh : some c = some c0 := congrArg List.head? ht
        exact Option.some_inj.mp hh
      subst hc
      simp [ih]
    · simp [ih]

theorem replaceAll_single_self (c : Char) (z : List Char) :
    replaceAll [c] [c] z = z :=
  replaceSkip_single_self c z

theorem contains_trans_false {sub key z : List Char}
    (hsk : sub <:+: key) (hz : listContains sub z = false) :
    listContains key z = false := by
  cases hk : listContains key z with
  | false => rfl
  | true =>
    exfalso
    have h1 : sub <:+: z := List.IsInfix.trans hsk ((listContains_iff _ _).mp hk)
    rw [← listContains_iff sub z] at h1
    rw [h1] at hz
    cases hz

theorem contains_false_of_missing_char {key z : List Char} {x : Char}
    (hx : x ∈ key) (hz : x ∉ z) : listContains key z = false := by
  cases hk : listContains key z with
  | false => rfl
  | true =>
    exfalso
    exact hz (List.IsInfix.subset ((listContains_iff _ _).mp hk) hx)

theorem collapseGo_eq_self :
    ∀ (z : List Char) (b : Bool),
      (∀ c ∈ z, isPySpace c = true → c = ' ') →
      List.Chain' (fun a c => ¬(a = ' ' ∧ c = ' ')) z →
      (b = true → z.head? ≠ some ' ') →
      collapseGo b z = z := by
  intro z
  induction z with
  | nil =>
    intro b _ _ _
    rfl
  | cons c0 rest ih =>
    intro b hsp hch hb
    by_cases hc0 : isPySpace c0 = true
    · have hc0' : c0 = ' ' := hsp c0 (List.mem_cons_self _ _) hc0
      subst hc0'
      cases b with
      | true => exact absurd rfl (hb rfl)
      | false =>
        simp only [collapseGo, if_pos hc0, if_neg (by simp : ¬(false = true))]
        congr 1
        apply ih true
        · exact fun c hc => hsp c (List.mem_cons_of_mem _ hc)
        · exact (List.chain'_cons'.mp hch).2
        · intro _ hhead
          rcases hhd : rest.head? with _ | c1
          · rw [hhd] at hhead
            cases hhead
          · rw [hhd] at hhead
            injection hhead with hc1
            exact (List.chain'_cons'.mp hch).1 c1 hhd ⟨rfl, hc1⟩
    · simp only [collapseGo, if_neg hc0]
      congr 1
      apply ih false
      · exact fun c hc => hsp c (List.mem_cons_of_mem _ hc)
      · exact (List.chain'_cons'.mp hch).2
      · intro hff
        cases hff

/-- Characters of the normalizer's output are uppercase-fixed word
characters or spaces. -/
theorem normChars_eq (l : List Char) :
    normChars l =
      pyStrip (collapseWs (stripSpecials (applyReplacements
        (pyStrip (pyUpper l))))) := by
  cases l with
  | nil => rfl
  | cons c rest => rfl

theorem normChars_chars (l : List Char) :
    ∀ c ∈ normChars l, (isWordChar c = true ∨ c = ' ') ∧ c.toUpper = c := by
  intro c hc
  rw [normChars_eq] at hc
  have hc1 : c ∈ collapseWs (stripSpecials (applyReplacements (pyStrip (pyUpper l)))) :=
    List.IsInfix.subset (pyStrip_within _) hc
  rcases collapseGo_chars _ false c hc1 with h | ⟨hmem, hnsp⟩
  · subst h
    exact ⟨Or.inr rfl, by decide⟩
  · obtain ⟨hws, hsrc⟩ := stripSpecials_chars hmem
    have hword : isWordChar c = true := by
      rcases hws with h | h
      · exact h
      · rw [h] at hnsp
        cases hnsp
    refine ⟨Or.inl hword, ?_⟩
    rcases hsrc with hsrc | hsrc
    · refine foldl_replace_chars (fun c => c.toUpper = c) replacements _ ?_ ?_ c hsrc
      · intro x hx
        have hx2 : x ∈ pyUpper l := List.IsInfix.subset (pyStrip_within _) hx
        obtain ⟨x0, _, hx0⟩ := List.mem_map.mp hx2
        rw [← hx0]
        exact toUpper_idem x0
      · have hrepl : ∀ kr ∈ replacements, ∀ x ∈ kr.2, x.toUpper = x := by decide
        exact hrepl
    · subst hsrc
      decide

theorem space_pair_imp (a b : Char)
    (hab : isPySpace a = false ∨ isPySpace b = false) : ¬(a = ' ' ∧ b = ' ') := by
  intro hcon
  obtain ⟨ha, hb⟩ := hcon
  subst ha
  subst hb
  rcases hab with h | h <;> exact absurd h (by decide)

theorem collapseWs_eq (z : List Char) : collapseWs z = collapseGo false z := rfl

/-- The normalizer's output never has two adjacent spaces. -/
theorem normChars_space_chain (l : List Char) :
    List.Chain' (fun a b => ¬(a = ' ' ∧ b = ' ')) (normChars l) := by
  obtain ⟨z, hz⟩ : ∃ z, stripSpecials (applyReplacements (pyStrip (pyUpper l))) = z :=
    ⟨_, rfl⟩
  have he := normChars_eq l
  rw [hz, collapseWs_eq] at he
  have h := collapse_chain z false
  have hinf := pyStrip_within (collapseGo false z)
  have h2 := List.Chain'.infix h hinf
  have h3 := List.Chain'.imp (fun a b hab => space_pair_imp a b hab) h2
  exact Eq.mpr
    (congrArg (List.Chain' fun a b => ¬(a = ' ' ∧ b = ' ')) he) h3

theorem replaceAll_space_self (z : List Char) :
    replaceAll " ".data " ".data z = z :=
  replaceSkip_single_self ' ' z

/-- C5 counterexample: the normalizer is not idempotent.  Removing the
parenthesis in `"I(IT"` creates a fresh occurrence of the abbreviation key
`"IIT"` that only a second pass would expand: one pass yields `"IIT"`, a
second yields `"INDIAN INSTITUTE OF TECH"`. -/
theorem c5_normalizer_not_idempotent :
    normalize_college_name (normalize_college_name "I(IT") ≠
      normalize_college_name "I(IT" ∧
    normalize_college_name "I(IT" = "IIT" ∧
    normalize_college_name (normalize_college_name "I(IT") =
      "INDIAN INSTITUTE OF TECH" := by
  exact ⟨by decide, by decide, by decide⟩

/-- C5 amended: the normalizer is idempotent on every input whose
normalized form contains none of the replacement keys `"IIT"`, `"NIT"`,
`"ENGINEERING"`, `"TECHNOLOGY"` as a substring (the other keys can never
occur in an output: `IIIT` contains `IIT`, `B.TECH` contains a stripped
character, and `(`, `)`, `&` are stripped).  Unconditional idempotence
fails (`normalize("I(IT") = "IIT"` but `normalize("IIT") = "INDIAN
INSTITUTE OF TECH"`). -/
theorem c5_normalizer_conditionally_idempotent (s : String)
    (h1 : strContains (normalize_college_name s) "IIT" = false)
    (h2 : strContains (normalize_college_name s) "NIT" = false)
    (h3 : strContains (normalize_college_name s) "ENGINEERING" = false)
    (h4 : strContains (normalize_college_name s) "TECHNOLOGY" = false) :
    normalize_college_name (normalize_college_name s) =
      normalize_college_name s := by
  apply string_ext
  show normChars (normChars s.data) = normChars s.data
  obtain ⟨z, hz⟩ : ∃ z, stripSpecials (applyReplacements (pyStrip (pyUpper s.data))) = z :=
    ⟨_, rfl⟩
  have he := normChars_eq s.data
  rw [hz, collapseWs_eq] at he
  have hW : ∀ c ∈ normChars s.data,
      (isWordChar c = true ∨ c = ' ') ∧ c.toUpper = c := normChars_chars s.data
  have hchain := normChars_space_chain s.data
  have hsp : ∀ c ∈ normChars s.data, isPySpace c = true → c = ' ' := by
    intro c hc hspc
    rcases (hW c hc).1 with h | h
    · rw [word_not_space h] at hspc
      cases hspc
    · exact h
  have k1 : listContains "IIT".data (normChars s.data) = false := h1
  have k2 : listContains "NIT".data (normChars s.data) = false := h2
  have k3 : listContains "ENGINEERING".data (normChars s.data) = false := h3
  have k4 : listContains "TECHNOLOGY".data (normChars s.data) = false := h4
  have hnotin : ∀ x : Char, isWordChar x = false → ¬(x = ' ') →
      x ∉ normChars s.data := by
    intro x hxw hxs hx
    rcases (hW x hx).1 with h | h
    · rw [h] at hxw
      cases hxw
    · exact hxs h
  have k_iiit : listContains "IIIT".data (normChars s.data) = false :=
    contains_trans_false ((listContains_iff _ _).mp (by decide)) k1
  have k_bt : listContains "B.TECH".data (normChars s.data) = false :=
    contains_false_of_missing_char (x := '.') (by decide)
      (hnotin '.' (by decide) (by decide))
  have k_bt2 : listContains "B.TECH.".data (normChars s.data) = false :=
    contains_false_of_missing_char (x := '.') (by decide)
      (hnotin '.' (by decide) (by decide))
  have k_lp : listContains "(".data (normChars s.data) = false :=
    contains_false_of_missing_char (x := '(') (by decide)
      (hnotin '(' (by decide) (by decide))
  have k_rp : listContains ")".data (normChars s.data) = false :=
    contains_false_of_missing_char (x := ')') (by decide)
      (hnotin ')' (by decide) (by decide))
  have k_amp : listContains "&".data (normChars s.data) = false :=
    contains_false_of_missing_char (x := '&') (by decide)
      (hnotin '&' (by decide) (by decide))
  have e_upper : pyUpper (normChars s.data) = normChars s.data :=
    map_id_of_mem _ fun c hc => (hW c hc).2
  have e_strip : pyStrip (normChars s.data) = normChars s.data := by
    rw [he]
    apply pyStrip_eq_self
    · intro c hch
      exact pyStrip_head _ c hch
    · intro c hcl
      exact pyStrip_last _ c hcl
  have e_reps : applyReplacements (normChars s.data) = normChars s.data := by
    simp only [applyReplacements, replacements, List.foldl_cons, List.foldl_nil]
    rw [replaceAll_id_not_contains "IIT".data _ _ (by decide) k1,
      replaceAll_id_not_contains "NIT".data _ _ (by decide) k2,
      replaceAll_id_not_contains "IIIT".data _ _ (by decide) k_iiit,
      replaceAll_id_not_contains "B.TECH".data _ _ (by decide) k_bt,
      replaceAll_id_not_contains "B.TECH.".data _ _ (by decide) k_bt2,
      replaceAll_id_not_contains "ENGINEERING".data _ _ (by decide) k3,
      replaceAll_id_not_contains "TECHNOLOGY".data _ _ (by decide) k4,
      replaceAll_space_self,
      replaceAll_id_not_contains "(".data _ _ (by decide) k_lp,
      replaceAll_id_not_contains ")".data _ _ (by decide) k_rp,
      replaceAll_id_not_contains "&".data _ _ (by decide) k_amp]
  have e_spec : stripSpecials (normChars s.data) = normChars s.data := by
    apply map_id_of_mem
    intro c hc
    rcases (hW c hc).1 with h | h
    · have hcond : (isWordChar c || isPySpace c) = true := by
        rw [h]
        rfl
      rw [if_pos hcond]
    · subst h
      decide
  have e_coll : collapseWs (normChars s.data) = normChars s.data :=
    collapseGo_eq_self _ false hsp hchain (by intro h; cases h)
  have heX := normChars_eq (normChars s.data)
  rw [e_upper, e_strip, e_reps, e_spec, e_coll, e_strip] at heX
  exact heX

/-- Witness for C5 (amended) at a concrete fixed input. -/
theorem c5_normalizer_conditionally_idempotent_witness :
    normalize_college_name (normalize_college_name "ABC COLLEGE") =
      normalize_college_name "ABC COLLEGE" :=
  c5_normalizer_conditionally_idempotent "ABC COLLEGE"
    (by decide) (by decide) (by decide) (by decide)

end CollegeRec
